import Mathlib

/-!
Verification of the distribution query and rebinning engine of
`code/interactive_webapp/backend.py`.

Modelling conventions (shallow embedding):
* A pandas DataFrame is a Lean `List` of records, in row order.
* `strike` and `probability` are modelled as `ℚ` (exact arithmetic; the spec
  qualifies every numeric claim with "when arithmetic is exact").
* Calendar dates / timestamps are modelled as `Int` values in `yyyymmdd` form;
  pandas timestamps are only compared for order and equality, and the
  `yyyymmdd` encoding is order-isomorphic to calendar order.
* `pd.to_datetime("today").normalize()` (the ambient wall clock) is passed to
  each endpoint as an explicit `today : Int` argument; only `get_contract_info`
  reads it, mirroring the source, where only that endpoint touches the clock.
* `sort_values` is modelled by insertion sort; all claims about sorted output
  concern lists with pairwise-distinct keys, where every sort agrees.
-/

/-- One row of the per-date `subset` frame of `get_distribution`:
the `[['strike', 'probability']]` projection. -/
structure Row where
  strike : ℚ
  probability : ℚ
deriving DecidableEq

/-- `subset['probability'].sum()`. -/
def sumProb (l : List Row) : ℚ :=
  (l.map (fun r => r.probability)).sum

/-- The row-wise update performed by `subset.assign(probability=...)`:
add `lump` to the probability of each row whose strike equals `b`. -/
def bumpAt (b lump : ℚ) (r : Row) : Row :=
  if r.strike = b then ⟨r.strike, r.probability + lump⟩ else r

/-- Lines 92–105 of `backend.py` (the `smallest_bin` branch of
`get_distribution`): fold the mass strictly below `smallest_bin` onto the
boundary.  The new boundary row is *prepended*, as in
`pd.concat([pd.DataFrame([{...}]), subset])`. -/
def lowerStep (smallest_bin : ℚ) (subset : List Row) : List Row :=
  let lump := sumProb (subset.filter (fun r => r.strike < smallest_bin))
  let kept := subset.filter (fun r => smallest_bin ≤ r.strike)
  if 0 < lump then
    if smallest_bin ∈ kept.map (fun r => r.strike) then
      kept.map (bumpAt smallest_bin lump)
    else
      ⟨smallest_bin, lump⟩ :: kept
  else kept

/-- Lines 107–121 of `backend.py` (the `largest_bin` branch): fold the mass
strictly above `largest_bin` onto the boundary.  The new boundary row is
*appended*, as in `pd.concat([subset, pd.DataFrame([{...}])])`. -/
def upperStep (largest_bin : ℚ) (subset : List Row) : List Row :=
  let lump := sumProb (subset.filter (fun r => largest_bin < r.strike))
  let kept := subset.filter (fun r => r.strike ≤ largest_bin)
  if 0 < lump then
    if largest_bin ∈ kept.map (fun r => r.strike) then
      kept.map (bumpAt largest_bin lump)
    else
      kept ++ [⟨largest_bin, lump⟩]
  else kept

/-- Comparison of rows by strike, the key of `subset.sort_values('strike')`. -/
def leStrike (a b : Row) : Prop :=
  a.strike ≤ b.strike

instance : DecidableRel leStrike :=
  fun a b => inferInstanceAs (Decidable (a.strike ≤ b.strike))

instance : IsTotal Row leStrike :=
  ⟨fun a b => le_total a.strike b.strike⟩

instance : IsTrans Row leStrike :=
  ⟨fun _ _ _ hab hbc => le_trans hab hbc⟩

/-- `subset.sort_values('strike')`. -/
def sortByStrike (l : List Row) : List Row :=
  List.insertionSort leStrike l

/-- The per-date rebinning pipeline of `get_distribution` (lines 91–123):
optional lower-bound folding, then optional upper-bound folding, then a sort
ascending by strike. -/
def rebin (smallest_bin largest_bin : Option ℚ) (subset : List Row) : List Row :=
  let s1 := match smallest_bin with
    | none => subset
    | some lb => lowerStep lb subset
  let s2 := match largest_bin with
    | none => s1
    | some ub => upperStep ub s1
  sortByStrike s2

/-- Strikes of a subset are pairwise distinct (the data-model invariant for a
fixed contract and prediction date). -/
def uniqueStrikes (l : List Row) : Prop :=
  (l.map (fun r => r.strike)).Nodup

/-- One row of the process-wide `kalshi_data` frame.  `type` is the source
category tag; dates are `yyyymmdd` integers (see the header comment). -/
structure DRow where
  type : String
  contract_preamble : String
  prediction_date : Int
  horizon_date : Int
  strike : ℚ
  probability : ℚ
deriving DecidableEq

/-- The `HORIZON_MAP` constant of `backend.py`, dates in `yyyymmdd` form. -/
def HORIZON_MAP : List (String × Int) :=
  [("FED-25JUL", 20250730), ("FED-25SEP", 20250917),
   ("FED-25OCT", 20251029), ("FED-25DEC", 20251210)]

/-- The per-row lambda of `apply_horizon_override`: replace `horizon_date` by
the mapped canonical date when `contract_preamble` is a key of `HORIZON_MAP`,
else pass the row through. -/
def overrideRow (row : DRow) : DRow :=
  match HORIZON_MAP.lookup row.contract_preamble with
  | some d => ⟨row.type, row.contract_preamble, row.prediction_date, d,
      row.strike, row.probability⟩
  | none => row

/-- `apply_horizon_override` of `backend.py` (lines 40–46): `df.apply(..., axis=1)`
over the `horizon_date` column. -/
def apply_horizon_override (df : List DRow) : List DRow :=
  df.map overrideRow

/-- Helper for `dropDuplicates`: drop the elements already in `seen`, keeping
the first occurrence of everything else. -/
def dropDuplicatesAux {α : Type} [DecidableEq α] (seen : List α) :
    List α → List α
  | [] => []
  | x :: xs =>
    if x ∈ seen then dropDuplicatesAux seen xs
    else x :: dropDuplicatesAux (x :: seen) xs

/-- `pandas.drop_duplicates` / `Series.unique`: keep the first occurrence of
each element, in order of first appearance. -/
def dropDuplicates {α : Type} [DecidableEq α] (l : List α) : List α :=
  dropDuplicatesAux [] l

/-- Descending comparison on (contract, horizon) pairs, the key of
`sort_values("horizon_date", ascending=False)` in `get_contracts`. -/
def geHorizon (a b : String × Int) : Prop :=
  b.2 ≤ a.2

instance : DecidableRel geHorizon :=
  fun a b => inferInstanceAs (Decidable (b.2 ≤ a.2))

/-- Ascending comparison on (contract, horizon) pairs, the key of
`sort_values('horizon_date')` in `get_contract_info`. -/
def leHorizon (a b : String × Int) : Prop :=
  a.2 ≤ b.2

instance : DecidableRel leHorizon :=
  fun a b => inferInstanceAs (Decidable (a.2 ≤ b.2))

/-- The `/contracts` endpoint (lines 57–70).  `today` is the ambient wall
clock, unread here (the source never consults it).  `none` and `some ""`
both skip the filter, mirroring Python's `if type:` truthiness test. -/
def get_contracts (table : List DRow) (today : Int) (ty : Option String) :
    List String :=
  let df := match ty with
    | some t => if t = "" then table else table.filter (fun r => r.type = t)
    | none => table
  let pairs := dropDuplicates
    (df.map (fun r => (r.contract_preamble, r.horizon_date)))
  (List.insertionSort geHorizon pairs).map (fun p => p.1)

/-- Result record of the `/distribution` endpoint: the sorted distinct strike
labels, and for each requested date the rebinned series (in request order;
the Python `dict` keyed by date string is modelled as an association list). -/
structure DistOut where
  strike_labels : List ℚ
  data : List (Int × List Row)
deriving DecidableEq

/-- The `/distribution` endpoint, `get_distribution` (lines 73–130).
`today` is the ambient wall clock, unread here. -/
def get_distribution (table : List DRow) (today : Int)
    (contract_preamble : String) (prediction_dates : List Int)
    (smallest_bin largest_bin : Option ℚ) : DistOut :=
  let df := table.filter (fun r => r.contract_preamble = contract_preamble)
  let data := prediction_dates.map (fun d =>
    let subset : List Row := (df.filter (fun r => r.prediction_date = d)).map
      (fun r => ⟨r.strike, r.probability⟩)
    match subset with
    | [] => (d, ([] : List Row))
    | _ => (d, rebin smallest_bin largest_bin subset))
  let strike_labels := List.insertionSort (fun a b => a ≤ b)
    (dropDuplicates ((table.filter
      (fun r => r.contract_preamble = contract_preamble)).map
        (fun r => r.strike)))
  ⟨strike_labels, data⟩

/-- Result record of the `/contract-info` endpoint when the contract is known. -/
structure ContractInfo where
  horizon_date : Int
  previous_horizon_date : Option Int
  latest_prediction_date : Int
deriving DecidableEq

/-- The `/contract-info` endpoint, `get_contract_info` (lines 133–158).
`today` models `pd.to_datetime("today").normalize()` — this endpoint is the
only one that reads the ambient clock.  The empty dict returned for an
unknown contract becomes `none`. -/
def get_contract_info (table : List DRow) (today : Int)
    (contract_preamble : String) : Option ContractInfo :=
  match table.filter (fun r => r.contract_preamble = contract_preamble) with
  | [] => none
  | r0 :: rest =>
    let this_type := r0.type
    let this_horizon := r0.horizon_date
    let latest_pred := (rest.map (fun r => r.prediction_date)).foldl max
      r0.prediction_date
    let type_horizons := List.insertionSort leHorizon (dropDuplicates
      ((table.filter (fun r => r.type = this_type)).map
        (fun r => (r.contract_preamble, r.horizon_date))))
    let previous_horizons := type_horizons.filter (fun p => p.2 < this_horizon)
    let past_horizons := previous_horizons.filter (fun p => p.2 < today)
    let previous_valid : Option Int := (past_horizons.map (fun p => p.2)).max?
    some ⟨this_horizon, previous_valid, latest_pred⟩

/-- The `/types` endpoint (lines 160–162).  `today` is unread here. -/
def get_types (table : List DRow) (today : Int) : List String :=
  dropDuplicates (table.map (fun r => r.type))

/-- The `/prediction-dates` endpoint (lines 164–174).  `today` is unread
here. -/
def get_prediction_dates (table : List DRow) (today : Int)
    (contract_preamble : String) (ty : String) : List Int :=
  let filtered := table.filter
    (fun r => r.contract_preamble = contract_preamble ∧ r.type = ty)
  match filtered with
  | [] => []
  | _ => List.insertionSort (fun a b => a ≤ b)
      (dropDuplicates (filtered.map (fun r => r.prediction_date)))

/-- The lower-bound truncation step exactly as §4.4 of the specification words
it, for comparison with `lowerStep` above: remove the rows strictly below the
bound; if the folded lump is positive, merge it into an existing boundary row,
otherwise insert a new boundary row (the spec fixes no position for the
insertion; this rendering appends it). -/
def specLowerStep (lower_bound : ℚ) (s : List Row) : List Row :=
  let lump := sumProb (s.filter (fun r => r.strike < lower_bound))
  let kept := s.filter (fun r => ¬ r.strike < lower_bound)
  if 0 < lump then
    if ∃ r ∈ kept, r.strike = lower_bound then
      kept.map (bumpAt lower_bound lump)
    else
      kept ++ [⟨lower_bound, lump⟩]
  else kept

/-- A small concrete distribution table: three contracts of one category with
horizons 2025-07-30 (future), 2025-06-18 (past) and 2025-03-19 (past), used to
instantiate the metadata-resolver claims. -/
def exT3 : List DRow :=
  [⟨"fed", "A", 20250601, 20250730, 0, 1⟩,
   ⟨"fed", "B", 20250501, 20250618, 0, 1⟩,
   ⟨"fed", "C", 20250301, 20250319, 0, 1⟩]

example : rebin (some 20) none [⟨10, 1/10⟩, ⟨20, 3/10⟩, ⟨30, 6/10⟩]
    = [⟨20, 4/10⟩, ⟨30, 6/10⟩] := by
  norm_num [rebin, lowerStep, upperStep, sortByStrike, sumProb, bumpAt, leStrike,
    List.insertionSort, List.orderedInsert, List.filter]

example : rebin (some 15) none [⟨10, 1/10⟩, ⟨20, 3/10⟩, ⟨30, 6/10⟩]
    = [⟨15, 1/10⟩, ⟨20, 3/10⟩, ⟨30, 6/10⟩] := by
  norm_num [rebin, lowerStep, upperStep, sortByStrike, sumProb, bumpAt, leStrike,
    List.insertionSort, List.orderedInsert, List.filter]

example : rebin (some 20) (some 12) [⟨10, 1/10⟩, ⟨20, 3/10⟩, ⟨30, 6/10⟩]
    = [⟨12, 1⟩] := by
  norm_num [rebin, lowerStep, upperStep, sortByStrike, sumProb, bumpAt, leStrike,
    List.insertionSort, List.orderedInsert, List.filter]

/-! ### Basic lemmas about sums, bumps and strike uniqueness -/

theorem sumProb_nil : sumProb [] = 0 := rfl

theorem sumProb_cons (r : Row) (l : List Row) :
    sumProb (r :: l) = r.probability + sumProb l := by
  simp [sumProb]

theorem sumProb_append (l m : List Row) :
    sumProb (l ++ m) = sumProb l + sumProb m := by
  simp [sumProb]

theorem sumProb_perm {l m : List Row} (h : l.Perm m) : sumProb l = sumProb m :=
  List.Perm.sum_eq (List.Perm.map (fun r => r.probability) h)

theorem sumProb_nonneg {l : List Row} (h : ∀ r ∈ l, 0 ≤ r.probability) :
    0 ≤ sumProb l := by
  induction l with
  | nil => simp [sumProb]
  | cons r t ih =>
    have h1 : 0 ≤ r.probability := h r (List.mem_cons_self r t)
    have h2 : 0 ≤ sumProb t := ih (fun x hx => h x (List.mem_cons_of_mem r hx))
    rw [sumProb_cons]
    exact add_nonneg h1 h2

theorem sumProb_split_lower (lb : ℚ) (l : List Row) :
    sumProb (l.filter (fun r => r.strike < lb)) +
      sumProb (l.filter (fun r => lb ≤ r.strike)) = sumProb l := by
  induction l with
  | nil => simp [sumProb]
  | cons r t ih =>
    by_cases h : r.strike < lb
    · simp [List.filter_cons, h, not_le.mpr h, sumProb_cons]
      linarith [ih]
    · simp [List.filter_cons, h, not_lt.mp h, sumProb_cons]
      linarith [ih]

theorem sumProb_split_upper (ub : ℚ) (l : List Row) :
    sumProb (l.filter (fun r => ub < r.strike)) +
      sumProb (l.filter (fun r => r.strike ≤ ub)) = sumProb l := by
  induction l with
  | nil => simp [sumProb]
  | cons r t ih =>
    by_cases h : ub < r.strike
    · simp [List.filter_cons, h, not_le.mpr h, sumProb_cons]
      linarith [ih]
    · simp [List.filter_cons, h, not_lt.mp h, sumProb_cons]
      linarith [ih]

theorem strike_bumpAt (b lump : ℚ) (r : Row) :
    (bumpAt b lump r).strike = r.strike := by
  unfold bumpAt
  split <;> rfl

theorem map_strike_bumpAt (b lump : ℚ) (l : List Row) :
    (l.map (bumpAt b lump)).map (fun r => r.strike) = l.map (fun r => r.strike) := by
  induction l with
  | nil => rfl
  | cons r t ih => simp [strike_bumpAt, ih]

theorem map_bumpAt_of_no_match (b lump : ℚ) {l : List Row}
    (h : ∀ r ∈ l, r.strike ≠ b) : l.map (bumpAt b lump) = l := by
  induction l with
  | nil => rfl
  | cons r t ih =>
    have hr : r.strike ≠ b := h r (List.mem_cons_self r t)
    have ht := ih (fun x hx => h x (List.mem_cons_of_mem r hx))
    simp [bumpAt, hr, ht]

theorem sumProb_map_bumpAt (b lump : ℚ) {l : List Row}
    (hu : uniqueStrikes l) (hmem : ∃ r ∈ l, r.strike = b) :
    sumProb (l.map (bumpAt b lump)) = sumProb l + lump := by
  induction l with
  | nil => simp at hmem
  | cons r t ih =>
    have hnd := hu
    simp only [uniqueStrikes, List.map_cons, List.nodup_cons] at hnd
    obtain ⟨hnotin, hndt⟩ := hnd
    obtain ⟨x, hx, hxb⟩ := hmem
    rcases List.mem_cons.mp hx with hxr | hxt
    · subst hxr
      have hnone : ∀ y ∈ t, y.strike ≠ b := by
        intro y hy hyb
        exact hnotin (hxb ▸ hyb ▸ List.mem_map_of_mem (fun z => z.strike) hy)
      rw [List.map_cons, map_bumpAt_of_no_match b lump hnone,
        sumProb_cons, sumProb_cons, bumpAt, if_pos hxb]
      simp only
      ring
    · have hrb : r.strike ≠ b := by
        intro hr
        exact hnotin (hr ▸ hxb ▸ List.mem_map_of_mem (fun z => z.strike) hxt)
      have ht := ih hndt ⟨x, hxt, hxb⟩
      rw [List.map_cons, sumProb_cons, sumProb_cons, bumpAt, if_neg hrb, ht]
      ring

theorem uniqueStrikes_filter (p : Row → Bool) {l : List Row}
    (h : uniqueStrikes l) : uniqueStrikes (l.filter p) :=
  List.Nodup.sublist (List.Sublist.map _ (List.filter_sublist l)) h

/-! ### Properties of the two folding steps -/

theorem lowerStep_def (lb : ℚ) (l : List Row) :
    lowerStep lb l =
      if 0 < sumProb (l.filter (fun r => r.strike < lb)) then
        if lb ∈ (l.filter (fun r => lb ≤ r.strike)).map (fun r => r.strike) then
          (l.filter (fun r => lb ≤ r.strike)).map
            (bumpAt lb (sumProb (l.filter (fun r => r.strike < lb))))
        else
          ⟨lb, sumProb (l.filter (fun r => r.strike < lb))⟩ ::
            l.filter (fun r => lb ≤ r.strike)
      else l.filter (fun r => lb ≤ r.strike) := rfl

theorem upperStep_def (ub : ℚ) (l : List Row) :
    upperStep ub l =
      if 0 < sumProb (l.filter (fun r => ub < r.strike)) then
        if ub ∈ (l.filter (fun r => r.strike ≤ ub)).map (fun r => r.strike) then
          (l.filter (fun r => r.strike ≤ ub)).map
            (bumpAt ub (sumProb (l.filter (fun r => ub < r.strike))))
        else
          l.filter (fun r => r.strike ≤ ub) ++
            [⟨ub, sumProb (l.filter (fun r => ub < r.strike))⟩]
      else l.filter (fun r => r.strike ≤ ub) := rfl

theorem lowerStep_sum (lb : ℚ) (l : List Row) (hu : uniqueStrikes l)
    (hp : ∀ r ∈ l, 0 ≤ r.probability) :
    sumProb (lowerStep lb l) = sumProb l := by
  have hsplit := sumProb_split_lower lb l
  rw [lowerStep_def]
  split_ifs with h1 h2
  · obtain ⟨r, hr, hrs⟩ := List.mem_map.mp h2
    rw [sumProb_map_bumpAt _ _ (uniqueStrikes_filter _ hu) ⟨r, hr, hrs⟩]
    linarith
  · rw [sumProb_cons]
    simp only
    linarith
  · have h0 : 0 ≤ sumProb (l.filter (fun r => r.strike < lb)) :=
      sumProb_nonneg (fun r hr => hp r (List.mem_filter.mp hr).1)
    have hz : sumProb (l.filter (fun r => r.strike < lb)) = 0 :=
      le_antisymm (not_lt.mp h1) h0
    linarith

theorem upperStep_sum (ub : ℚ) (l : List Row) (hu : uniqueStrikes l)
    (hp : ∀ r ∈ l, 0 ≤ r.probability) :
    sumProb (upperStep ub l) = sumProb l := by
  have hsplit := sumProb_split_upper ub l
  rw [upperStep_def]
  split_ifs with h1 h2
  · obtain ⟨r, hr, hrs⟩ := List.mem_map.mp h2
    rw [sumProb_map_bumpAt _ _ (uniqueStrikes_filter _ hu) ⟨r, hr, hrs⟩]
    linarith
  · rw [sumProb_append, sumProb_cons, sumProb_nil]
    simp only
    linarith
  · have h0 : 0 ≤ sumProb (l.filter (fun r => ub < r.strike)) :=
      sumProb_nonneg (fun r hr => hp r (List.mem_filter.mp hr).1)
    have hz : sumProb (l.filter (fun r => ub < r.strike)) = 0 :=
      le_antisymm (not_lt.mp h1) h0
    linarith

theorem lowerStep_unique (lb : ℚ) (l : List Row) (hu : uniqueStrikes l) :
    uniqueStrikes (lowerStep lb l) := by
  rw [lowerStep_def]
  split_ifs with h1 h2
  · unfold uniqueStrikes
    rw [map_strike_bumpAt]
    exact uniqueStrikes_filter _ hu
  · unfold uniqueStrikes
    simp only [List.map_cons, List.nodup_cons]
    exact ⟨h2, uniqueStrikes_filter _ hu⟩
  · exact uniqueStrikes_filter _ hu

theorem upperStep_unique (ub : ℚ) (l : List Row) (hu : uniqueStrikes l) :
    uniqueStrikes (upperStep ub l) := by
  rw [upperStep_def]
  split_ifs with h1 h2
  · unfold uniqueStrikes
    rw [map_strike_bumpAt]
    exact uniqueStrikes_filter _ hu
  · unfold uniqueStrikes
    rw [List.map_append]
    simp only [List.map_cons, List.map_nil]
    rw [List.nodup_append]
    refine ⟨uniqueStrikes_filter _ hu, List.nodup_singleton _, ?_⟩
    intro a ha hb
    simp only [List.mem_singleton] at hb
    subst hb
    exact h2 ha
  · exact uniqueStrikes_filter _ hu

theorem lowerStep_nonneg (lb : ℚ) (l : List Row)
    (hp : ∀ r ∈ l, 0 ≤ r.probability) :
    ∀ r ∈ lowerStep lb l, 0 ≤ r.probability := by
  rw [lowerStep_def]
  split_ifs with h1 h2 <;> intro r hr
  · obtain ⟨x, hx, rfl⟩ := List.mem_map.mp hr
    have hx0 := hp x (List.mem_filter.mp hx).1
    unfold bumpAt
    split
    · simp only
      linarith
    · exact hx0
  · rcases List.mem_cons.mp hr with hhead | hmem
    · subst hhead
      exact le_of_lt h1
    · exact hp r (List.mem_filter.mp hmem).1
  · exact hp r (List.mem_filter.mp hr).1

theorem lowerStep_ge (lb : ℚ) (l : List Row) :
    ∀ r ∈ lowerStep lb l, lb ≤ r.strike := by
  rw [lowerStep_def]
  split_ifs with h1 h2 <;> intro r hr
  · obtain ⟨x, hx, rfl⟩ := List.mem_map.mp hr
    rw [strike_bumpAt]
    simpa using (List.mem_filter.mp hx).2
  · rcases List.mem_cons.mp hr with hhead | hmem
    · subst hhead
      exact le_refl lb
    · simpa using (List.mem_filter.mp hmem).2
  · simpa using (List.mem_filter.mp hr).2

/-! ### Properties of the sort -/

theorem sortByStrike_perm (l : List Row) : (sortByStrike l).Perm l :=
  List.perm_insertionSort leStrike l

theorem sumProb_sortByStrike (l : List Row) :
    sumProb (sortByStrike l) = sumProb l :=
  sumProb_perm (sortByStrike_perm l)

theorem uniqueStrikes_sortByStrike (l : List Row) (hu : uniqueStrikes l) :
    uniqueStrikes (sortByStrike l) :=
  (List.Perm.nodup_iff (List.Perm.map _ (sortByStrike_perm l))).mpr hu

theorem rebin_none_none (s : List Row) : rebin none none s = sortByStrike s := rfl

theorem rebin_some_none (lb : ℚ) (s : List Row) :
    rebin (some lb) none s = sortByStrike (lowerStep lb s) := rfl

theorem rebin_none_some (ub : ℚ) (s : List Row) :
    rebin none (some ub) s = sortByStrike (upperStep ub s) := rfl

theorem rebin_some_some (lb ub : ℚ) (s : List Row) :
    rebin (some lb) (some ub) s = sortByStrike (upperStep ub (lowerStep lb s)) := rfl

theorem pairwise_lt_of_sorted_nodup {l : List Row}
    (hs : List.Sorted leStrike l) (hn : uniqueStrikes l) :
    l.Pairwise (fun a b => a.strike < b.strike) := by
  induction l with
  | nil => exact List.Pairwise.nil
  | cons a t ih =>
    obtain ⟨ha, ht⟩ := List.pairwise_cons.mp hs
    unfold uniqueStrikes at hn
    rw [List.map_cons, List.nodup_cons] at hn
    obtain ⟨hna, hnt⟩ := hn
    refine List.Pairwise.cons ?_ (ih ht hnt)
    intro b hb
    refine lt_of_le_of_ne (ha b hb) ?_
    intro heq
    exact hna (heq ▸ List.mem_map_of_mem (fun r => r.strike) hb)

theorem sortByStrike_pairwise_lt {l : List Row} (hn : uniqueStrikes l) :
    (sortByStrike l).Pairwise (fun a b => a.strike < b.strike) :=
  pairwise_lt_of_sorted_nodup (List.sorted_insertionSort leStrike l)
    (uniqueStrikes_sortByStrike l hn)

/-! ### The claims about the rebinning engine -/

/-- C1.  Mass conservation of rebinning: for every input series with unique
strikes and non-negative probabilities, and every choice of optional lower
and upper bounds, the total probability of the rebinned output equals the
total probability of the input, exactly, in exact (rational) arithmetic. -/
theorem rebin_mass_conservation (s : List Row) (lb ub : Option ℚ)
    (hu : uniqueStrikes s) (hp : ∀ r ∈ s, 0 ≤ r.probability) :
    sumProb (rebin lb ub s) = sumProb s := by
  cases lb with
  | none =>
    cases ub with
    | none => rw [rebin_none_none, sumProb_sortByStrike]
    | some u =>
      rw [rebin_none_some, sumProb_sortByStrike, upperStep_sum u s hu hp]
  | some lo =>
    cases ub with
    | none =>
      rw [rebin_some_none, sumProb_sortByStrike, lowerStep_sum lo s hu hp]
    | some u =>
      rw [rebin_some_some, sumProb_sortByStrike,
        upperStep_sum u _ (lowerStep_unique lo s hu) (lowerStep_nonneg lo s hp),
        lowerStep_sum lo s hu hp]

/-- Witness for C1: the general theorem applied to the concrete series
`{10: 0.1, 20: 0.3, 30: 0.6}` with bounds `12` and `25`. -/
theorem rebin_mass_conservation_witness :
    uniqueStrikes [⟨10, 1/10⟩, ⟨20, 3/10⟩, ⟨30, 6/10⟩] ∧
    sumProb (rebin (some 12) (some 25) [⟨10, 1/10⟩, ⟨20, 3/10⟩, ⟨30, 6/10⟩]) =
      sumProb [⟨10, 1/10⟩, ⟨20, 3/10⟩, ⟨30, 6/10⟩] := by
  refine ⟨?_, rebin_mass_conservation _ (some 12) (some 25) ?_ ?_⟩
  · norm_num [uniqueStrikes]
  · norm_num [uniqueStrikes]
  · intro r hr
    rcases List.mem_cons.mp hr with h | hr
    · subst h; norm_num
    rcases List.mem_cons.mp hr with h | hr
    · subst h; norm_num
    rcases List.mem_cons.mp hr with h | hr
    · subst h; norm_num
    · simp at hr

/-- C7.  Identity under vacuous bounds: with no bound supplied, or with a
lower bound strictly below every strike and an upper bound strictly above
every strike, rebinning returns the input series unchanged, merely sorted
ascending by strike (a permutation of the input with every probability
unmodified). -/
theorem rebin_vacuous_bounds (s : List Row) (lb ub : ℚ)
    (hu : uniqueStrikes s)
    (hlb : ∀ r ∈ s, lb < r.strike) (hub : ∀ r ∈ s, r.strike < ub) :
    rebin (some lb) (some ub) s = sortByStrike s ∧
    rebin none none s = sortByStrike s ∧
    (sortByStrike s).Perm s := by
  have hlower : lowerStep lb s = s := by
    rw [lowerStep_def]
    have h1 : s.filter (fun r => r.strike < lb) = [] :=
      List.filter_eq_nil_iff.mpr (fun r hr => by simpa using lt_asymm (hlb r hr))
    have h2 : s.filter (fun r => lb ≤ r.strike) = s :=
      List.filter_eq_self.mpr (fun r hr => by simpa using le_of_lt (hlb r hr))
    rw [h1, h2, sumProb_nil, if_neg (lt_irrefl 0)]
  have hupper : upperStep ub s = s := by
    rw [upperStep_def]
    have h1 : s.filter (fun r => ub < r.strike) = [] :=
      List.filter_eq_nil_iff.mpr (fun r hr => by simpa using lt_asymm (hub r hr))
    have h2 : s.filter (fun r => r.strike ≤ ub) = s :=
      List.filter_eq_self.mpr (fun r hr => by simpa using le_of_lt (hub r hr))
    rw [h1, h2, sumProb_nil, if_neg (lt_irrefl 0)]
  exact ⟨by rw [rebin_some_some, hlower, hupper], rfl, sortByStrike_perm s⟩

/-- Witness for C7 at the concrete series `{10: 0.1, 20: 0.3, 30: 0.6}` with
bounds `5 < 10` and `40 > 30`. -/
theorem rebin_vacuous_bounds_witness :
    rebin (some 5) (some 40) [⟨10, 1/10⟩, ⟨20, 3/10⟩, ⟨30, 6/10⟩] =
      sortByStrike [⟨10, 1/10⟩, ⟨20, 3/10⟩, ⟨30, 6/10⟩] ∧
    (sortByStrike [⟨10, 1/10⟩, ⟨20, 3/10⟩, ⟨30, 6/10⟩]).Perm
      [⟨10, 1/10⟩, ⟨20, 3/10⟩, ⟨30, 6/10⟩] := by
  have h := rebin_vacuous_bounds [⟨10, 1/10⟩, ⟨20, 3/10⟩, ⟨30, 6/10⟩] 5 40
    (by norm_num [uniqueStrikes])
    (by
      intro r hr
      rcases List.mem_cons.mp hr with h | hr
      · subst h; norm_num
      rcases List.mem_cons.mp hr with h | hr
      · subst h; norm_num
      rcases List.mem_cons.mp hr with h | hr
      · subst h; norm_num
      · simp at hr)
    (by
      intro r hr
      rcases List.mem_cons.mp hr with h | hr
      · subst h; norm_num
      rcases List.mem_cons.mp hr with h | hr
      · subst h; norm_num
      rcases List.mem_cons.mp hr with h | hr
      · subst h; norm_num
      · simp at hr)
  exact ⟨h.1, h.2.2⟩

/-- C9.  Inverted-bounds collapse: with supplied bounds ordered
`upper < lower`, positive total mass, unique strikes and non-negative
probabilities, the whole mass ends up in the single output row at the upper
bound. -/
theorem rebin_inverted_bounds (s : List Row) (lb ub : ℚ)
    (hu : uniqueStrikes s) (hp : ∀ r ∈ s, 0 ≤ r.probability)
    (hpos : 0 < sumProb s) (hlt : ub < lb) :
    rebin (some lb) (some ub) s = [⟨ub, sumProb s⟩] := by
  have hts : sumProb (lowerStep lb s) = sumProb s := lowerStep_sum lb s hu hp
  have htge : ∀ r ∈ lowerStep lb s, lb ≤ r.strike := lowerStep_ge lb s
  have hfa : (lowerStep lb s).filter (fun r => ub < r.strike) = lowerStep lb s :=
    List.filter_eq_self.mpr
      (fun r hr => by simpa using lt_of_lt_of_le hlt (htge r hr))
  have hfn : (lowerStep lb s).filter (fun r => r.strike ≤ ub) = [] :=
    List.filter_eq_nil_iff.mpr
      (fun r hr => by simpa using not_le.mpr (lt_of_lt_of_le hlt (htge r hr)))
  have hupper : upperStep ub (lowerStep lb s) = [⟨ub, sumProb s⟩] := by
    rw [upperStep_def, hfa, hfn, hts, if_pos hpos]
    simp
  rw [rebin_some_some, hupper]
  rfl

/-- Witness for C9 at the concrete series `{10: 0.1, 20: 0.3, 30: 0.6}` with
inverted bounds `lower = 20 > upper = 12`. -/
theorem rebin_inverted_bounds_witness :
    rebin (some 20) (some 12) [⟨10, 1/10⟩, ⟨20, 3/10⟩, ⟨30, 6/10⟩] =
      [⟨12, sumProb [⟨10, 1/10⟩, ⟨20, 3/10⟩, ⟨30, 6/10⟩]⟩] := by
  refine rebin_inverted_bounds _ 20 12 (by norm_num [uniqueStrikes]) ?_ ?_ (by norm_num)
  · intro r hr
    rcases List.mem_cons.mp hr with h | hr
    · subst h; norm_num
    rcases List.mem_cons.mp hr with h | hr
    · subst h; norm_num
    rcases List.mem_cons.mp hr with h | hr
    · subst h; norm_num
    · simp at hr
  · norm_num [sumProb]

/-- C4.  Sort invariant: for an input with unique strikes and any optional
bounds (ordered when both are supplied), the rebinned output is strictly
increasing in strike — in particular it contains no duplicate strikes. -/
theorem rebin_sorted_strict (s : List Row) (lb ub : Option ℚ)
    (hu : uniqueStrikes s)
    (hord : ∀ a b : ℚ, lb = some a → ub = some b → a ≤ b) :
    (rebin lb ub s).Pairwise (fun a b => a.strike < b.strike) := by
  cases lb with
  | none =>
    cases ub with
    | none => rw [rebin_none_none]; exact sortByStrike_pairwise_lt hu
    | some u =>
      rw [rebin_none_some]
      exact sortByStrike_pairwise_lt (upperStep_unique u s hu)
  | some lo =>
    cases ub with
    | none =>
      rw [rebin_some_none]
      exact sortByStrike_pairwise_lt (lowerStep_unique lo s hu)
    | some u =>
      rw [rebin_some_some]
      exact sortByStrike_pairwise_lt
        (upperStep_unique u _ (lowerStep_unique lo s hu))

/-- Witness for C4 at the concrete series `{30: 0.6, 10: 0.1, 20: 0.3}` (given
unsorted) with bounds `12 ≤ 25`. -/
theorem rebin_sorted_strict_witness :
    (rebin (some 12) (some 25)
      [⟨30, 6/10⟩, ⟨10, 1/10⟩, ⟨20, 3/10⟩]).Pairwise
        (fun a b => a.strike < b.strike) := by
  refine rebin_sorted_strict _ (some 12) (some 25) (by norm_num [uniqueStrikes]) ?_
  intro a b ha hb
  injection ha with h1
  injection hb with h2
  rw [← h1, ← h2]
  norm_num

theorem specLowerStep_def (lb : ℚ) (s : List Row) :
    specLowerStep lb s =
      if 0 < sumProb (s.filter (fun r => r.strike < lb)) then
        if ∃ r ∈ s.filter (fun r => ¬ r.strike < lb), r.strike = lb then
          (s.filter (fun r => ¬ r.strike < lb)).map
            (bumpAt lb (sumProb (s.filter (fun r => r.strike < lb))))
        else
          s.filter (fun r => ¬ r.strike < lb) ++
            [⟨lb, sumProb (s.filter (fun r => r.strike < lb))⟩]
      else s.filter (fun r => ¬ r.strike < lb) := rfl

/-- C2.  The lower-bound truncation step behaves as the specification words
it: rows strictly below the bound are dropped; a positive lump is merged into
an existing boundary row or placed in a fresh boundary row; a zero lump
creates no boundary row.  The code's result agrees with the specification's
description up to row order (the code prepends the fresh boundary row and
sorts later; the spec leaves the insertion position open).  The two concrete
examples of the spec are checked against the full lower-bounded rebinning. -/
theorem lowerStep_matches_spec :
    (∀ (s : List Row) (lb : ℚ), uniqueStrikes s →
      (lowerStep lb s).Perm (specLowerStep lb s)) ∧
    rebin (some 20) none [⟨10, 1/10⟩, ⟨20, 3/10⟩, ⟨30, 6/10⟩]
      = [⟨20, 4/10⟩, ⟨30, 6/10⟩] ∧
    rebin (some 15) none [⟨10, 1/10⟩, ⟨20, 3/10⟩, ⟨30, 6/10⟩]
      = [⟨15, 1/10⟩, ⟨20, 3/10⟩, ⟨30, 6/10⟩] := by
  refine ⟨?_, ?_, ?_⟩
  · intro s lb _
    have hkept : s.filter (fun r => lb ≤ r.strike) =
        s.filter (fun r => ¬ r.strike < lb) :=
      List.filter_congr (fun a _ => decide_eq_decide.mpr not_lt.symm)
    rw [lowerStep_def, specLowerStep_def, ← hkept]
    by_cases h1 : 0 < sumProb (s.filter (fun r => r.strike < lb))
    · rw [if_pos h1, if_pos h1]
      by_cases h2 : lb ∈ (s.filter (fun r => lb ≤ r.strike)).map (fun r => r.strike)
      · obtain ⟨r, hr, hrs⟩ := List.mem_map.mp h2
        rw [if_pos h2, if_pos ⟨r, hr, hrs⟩]
      · have h2x : ¬ ∃ r ∈ s.filter (fun r => lb ≤ r.strike), r.strike = lb := by
          rintro ⟨r, hr, hrs⟩
          exact h2 (List.mem_map.mpr ⟨r, hr, hrs⟩)
        rw [if_neg h2, if_neg h2x]
        exact (List.perm_append_singleton _ _).symm
    · rw [if_neg h1, if_neg h1]
  · norm_num [rebin, lowerStep, upperStep, sortByStrike, sumProb, bumpAt,
      leStrike, List.insertionSort, List.orderedInsert, List.filter]
  · norm_num [rebin, lowerStep, upperStep, sortByStrike, sumProb, bumpAt,
      leStrike, List.insertionSort, List.orderedInsert, List.filter]

/-- Witness for C2: the step/spec agreement applied at the concrete series
`{10: 0.1, 20: 0.3, 30: 0.6}` with the bound 20. -/
theorem lowerStep_matches_spec_witness :
    (lowerStep 20 [⟨10, 1/10⟩, ⟨20, 3/10⟩, ⟨30, 6/10⟩]).Perm
      (specLowerStep 20 [⟨10, 1/10⟩, ⟨20, 3/10⟩, ⟨30, 6/10⟩]) :=
  lowerStep_matches_spec.1 _ 20 (by norm_num [uniqueStrikes])

/-! ### The claims about the horizon override -/

/-- C5.  Horizon-override idempotence: the transform applied twice equals the
transform applied once; a row whose `contract_preamble` is a key of
`HORIZON_MAP` gets the mapped canonical date, and a row with no matching key
passes through unchanged. -/
theorem apply_horizon_override_idem :
    (∀ df : List DRow,
      apply_horizon_override (apply_horizon_override df) =
        apply_horizon_override df) ∧
    (∀ (row : DRow) (d : Int),
      HORIZON_MAP.lookup row.contract_preamble = some d →
      overrideRow row = ⟨row.type, row.contract_preamble, row.prediction_date,
        d, row.strike, row.probability⟩) ∧
    (∀ row : DRow, HORIZON_MAP.lookup row.contract_preamble = none →
      overrideRow row = row) := by
  have hrow : ∀ row : DRow, overrideRow (overrideRow row) = overrideRow row := by
    intro row
    rcases h : HORIZON_MAP.lookup row.contract_preamble with _ | d
    · simp [overrideRow, h]
    · simp [overrideRow, h]
  refine ⟨fun df => ?_, fun row d h => by simp [overrideRow, h],
    fun row h => by simp [overrideRow, h]⟩
  unfold apply_horizon_override
  rw [List.map_map]
  exact List.map_congr_left (fun a _ => hrow a)

/-- Witness for C5: a mapped row (`FED-25JUL`, whose nominal horizon 20250731
is overridden to 20250730) and an unmapped row pass through as claimed. -/
theorem apply_horizon_override_idem_witness :
    overrideRow ⟨"fed_levels", "FED-25JUL", 20250601, 20250731, 4, 1⟩ =
      ⟨"fed_levels", "FED-25JUL", 20250601, 20250730, 4, 1⟩ ∧
    overrideRow ⟨"headline_cpi_releases", "CPI-25JUL", 20250601, 20250715, 3, 1⟩ =
      ⟨"headline_cpi_releases", "CPI-25JUL", 20250601, 20250715, 3, 1⟩ :=
  ⟨apply_horizon_override_idem.2.1 _ 20250730 (by simp [HORIZON_MAP]),
   apply_horizon_override_idem.2.2 _ (by simp [HORIZON_MAP])⟩

/-- C10.  Frame property of the horizon override: the transform changes at
most the `horizon_date` column — the category tag, contract preamble,
prediction date, strike and probability of every row, and the number and
order of rows, are untouched. -/
theorem apply_horizon_override_frame (df : List DRow) :
    (apply_horizon_override df).map (fun r =>
        (r.type, r.contract_preamble, r.prediction_date, r.strike,
          r.probability)) =
      df.map (fun r =>
        (r.type, r.contract_preamble, r.prediction_date, r.strike,
          r.probability)) := by
  unfold apply_horizon_override
  rw [List.map_map]
  refine List.map_congr_left (fun a _ => ?_)
  rcases h : HORIZON_MAP.lookup a.contract_preamble with _ | d <;>
    simp [overrideRow, h]

/-! ### The contract-metadata resolver -/

theorem mem_dropDuplicatesAux {α : Type} [DecidableEq α] (x : α) :
    ∀ (l seen : List α),
      x ∈ dropDuplicatesAux seen l ↔ (x ∈ l ∧ x ∉ seen)
  | [], seen => by simp [dropDuplicatesAux]
  | y :: xs, seen => by
    by_cases hy : y ∈ seen
    · rw [dropDuplicatesAux, if_pos hy, mem_dropDuplicatesAux x xs seen]
      constructor
      · rintro ⟨hx, hs⟩
        exact ⟨List.mem_cons_of_mem y hx, hs⟩
      · rintro ⟨hx, hs⟩
        rcases List.mem_cons.mp hx with h | hx2
        · exact absurd (h ▸ hy) hs
        · exact ⟨hx2, hs⟩
    · rw [dropDuplicatesAux, if_neg hy]
      constructor
      · intro hx
        rcases List.mem_cons.mp hx with h | hx2
        · exact ⟨h ▸ List.mem_cons_self y xs, h ▸ hy⟩
        · obtain ⟨h1, h2⟩ := (mem_dropDuplicatesAux x xs (y :: seen)).mp hx2
          exact ⟨List.mem_cons_of_mem y h1,
            fun hs => h2 (List.mem_cons_of_mem y hs)⟩
      · rintro ⟨hx, hs⟩
        rcases List.mem_cons.mp hx with h | hx2
        · exact h ▸ List.mem_cons_self y _
        · by_cases hxy : x = y
          · exact hxy ▸ List.mem_cons_self y _
          · refine List.mem_cons_of_mem y
              ((mem_dropDuplicatesAux x xs (y :: seen)).mpr ⟨hx2, ?_⟩)
            simp [List.mem_cons, hxy, hs]

theorem mem_dropDuplicates {α : Type} [DecidableEq α] (x : α) (l : List α) :
    x ∈ dropDuplicates l ↔ x ∈ l := by
  rw [dropDuplicates, mem_dropDuplicatesAux]
  simp

theorem foldl_max_mem (a : Int) (l : List Int) :
    l.foldl max a = a ∨ l.foldl max a ∈ l := by
  induction l generalizing a with
  | nil => exact Or.inl rfl
  | cons b t ih =>
    rw [List.foldl_cons]
    rcases ih (max a b) with h | h
    · rcases max_choice a b with hm | hm
      · exact Or.inl (by rw [h, hm])
      · exact Or.inr (by rw [h, hm]; exact List.mem_cons_self b t)
    · exact Or.inr (List.mem_cons_of_mem b h)

theorem le_foldl_max (a : Int) (l : List Int) :
    a ≤ l.foldl max a ∧ ∀ x ∈ l, x ≤ l.foldl max a := by
  induction l generalizing a with
  | nil => exact ⟨le_refl a, by simp⟩
  | cons b t ih =>
    obtain ⟨h1, h2⟩ := ih (max a b)
    rw [List.foldl_cons]
    refine ⟨le_trans (le_max_left a b) h1, ?_⟩
    intro x hx
    rcases List.mem_cons.mp hx with h | hxt
    · rw [h]
      exact le_trans (le_max_right a b) h1
    · exact h2 x hxt

/-- Membership in the list of already-resolved same-category horizons computed
inside `get_contract_info`: exactly the horizon dates carried by some row of
the same category that are strictly before both this contract's horizon and
today. -/
theorem mem_pastList (table : List DRow) (tc : String) (hc today x : Int) :
    x ∈ ((((List.insertionSort leHorizon (dropDuplicates
          ((table.filter (fun r => r.type = tc)).map
            (fun r => (r.contract_preamble, r.horizon_date))))).filter
              (fun p => p.2 < hc)).filter
                (fun p => p.2 < today)).map (fun p => p.2)) ↔
      ((∃ r ∈ table, r.type = tc ∧ r.horizon_date = x) ∧ x < hc ∧ x < today) := by
  constructor
  · intro hx
    obtain ⟨p, hp, hpx⟩ := List.mem_map.mp hx
    obtain ⟨hp1, hptoday⟩ := List.mem_filter.mp hp
    obtain ⟨hp2, hphc⟩ := List.mem_filter.mp hp1
    have hp3 := (List.perm_insertionSort leHorizon _).mem_iff.mp hp2
    have hp4 := (mem_dropDuplicates _ _).mp hp3
    obtain ⟨r, hr, hrp⟩ := List.mem_map.mp hp4
    obtain ⟨hrtab, hrty⟩ := List.mem_filter.mp hr
    subst hpx
    refine ⟨⟨r, hrtab, by simpa using hrty, ?_⟩, by simpa using hphc,
      by simpa using hptoday⟩
    rw [← hrp]
  · rintro ⟨⟨r, hrtab, hrty, hrx⟩, hxhc, hxtoday⟩
    refine List.mem_map.mpr ⟨(r.contract_preamble, r.horizon_date), ?_, hrx⟩
    refine List.mem_filter.mpr ⟨List.mem_filter.mpr ⟨?_, ?_⟩, ?_⟩
    · refine (List.perm_insertionSort leHorizon _).mem_iff.mpr
        ((mem_dropDuplicates _ _).mpr (List.mem_map.mpr
          ⟨r, List.mem_filter.mpr ⟨hrtab, by simpa using hrty⟩, rfl⟩))
    · simp only
      simp [hrx, hxhc]
    · simp only
      simp [hrx, hxtoday]

/-- `past_horizons['horizon_date'].max() if not past_horizons.empty else None`:
the `Option`-valued maximum is `none` exactly on the empty list, and any
returned value is a member that dominates every member. -/
theorem max?_mem_le (pl : List Int) :
    (pl.max? = none ↔ pl = []) ∧
    (∀ m, pl.max? = some m → m ∈ pl ∧ ∀ x ∈ pl, x ≤ m) := by
  cases pl with
  | nil => exact ⟨iff_of_true rfl rfl, fun m hm => by simp at hm⟩
  | cons h t =>
    constructor
    · rw [List.max?_cons']
      constructor
      · intro habs
        exact absurd habs (by simp)
      · intro habs
        simp at habs
    · intro m hm
      rw [List.max?_cons', Option.some.injEq] at hm
      subst hm
      constructor
      · rcases foldl_max_mem h t with he | he
        · rw [he]
          exact List.mem_cons_self h t
        · exact List.mem_cons_of_mem h he
      · intro x hx
        rcases List.mem_cons.mp hx with he | hxt
        · rw [he]
          exact (le_foldl_max h t).1
        · exact (le_foldl_max h t).2 x hxt

/-- C3.  Previous-horizon selection: for a known contract (all of whose rows
share one category `tc` and one horizon `hc`), the metadata resolver returns
as `previous_horizon_date` the maximum horizon among rows of the same
category strictly earlier than both `hc` and today, and `none` when no such
horizon exists; and on the concrete spec example (same-category horizons
2025-07-30, 2025-06-18, 2025-03-19, contract horizon 2025-07-30, today
2025-07-01) the result is 2025-06-18. -/
theorem contract_info_previous_horizon :
    (∀ (table : List DRow) (today : Int) (c tc : String) (hc : Int)
        (info : ContractInfo),
      (∀ r ∈ table, r.contract_preamble = c → r.type = tc ∧ r.horizon_date = hc) →
      get_contract_info table today c = some info →
      info.horizon_date = hc ∧
      (info.previous_horizon_date = none ↔
        ¬ ∃ r ∈ table, r.type = tc ∧ r.horizon_date < hc ∧
          r.horizon_date < today) ∧
      (∀ m, info.previous_horizon_date = some m →
        (∃ r ∈ table, r.type = tc ∧ r.horizon_date = m) ∧ m < hc ∧ m < today ∧
        ∀ r ∈ table, r.type = tc → r.horizon_date < hc →
          r.horizon_date < today → r.horizon_date ≤ m)) ∧
    get_contract_info exT3 20250701 "A" =
      some ⟨20250730, some 20250618, 20250601⟩ := by
  constructor
  · intro table today c tc hc info hknown hinfo
    unfold get_contract_info at hinfo
    cases hfilt : table.filter (fun r => r.contract_preamble = c) with
    | nil =>
      rw [hfilt] at hinfo
      simp at hinfo
    | cons r0 rest =>
      rw [hfilt] at hinfo
      simp only at hinfo
      have hr0 : r0 ∈ table.filter (fun r => r.contract_preamble = c) := by
        rw [hfilt]
        exact List.mem_cons_self _ _
      obtain ⟨hr0tab, hr0pre⟩ := List.mem_filter.mp hr0
      obtain ⟨htype0, hhor0⟩ := hknown r0 hr0tab (by simpa using hr0pre)
      rw [htype0, hhor0, Option.some.injEq] at hinfo
      subst hinfo
      refine ⟨rfl, ?_, ?_⟩
      · show ((((List.insertionSort leHorizon (dropDuplicates
            ((table.filter (fun r => r.type = tc)).map
              (fun r => (r.contract_preamble, r.horizon_date))))).filter
                (fun p => p.2 < hc)).filter
                  (fun p => p.2 < today)).map (fun p => p.2)).max? = none ↔ _
        rw [(max?_mem_le _).1]
        constructor
        · intro hemp
          rintro ⟨r, hrtab, hrty, hrhc, hrtoday⟩
          have hmm := (mem_pastList table tc hc today r.horizon_date).mpr
            ⟨⟨r, hrtab, hrty, rfl⟩, hrhc, hrtoday⟩
          rw [hemp] at hmm
          simp at hmm
        · intro hno
          by_contra hne
          obtain ⟨x, hx⟩ := List.exists_mem_of_ne_nil _ hne
          obtain ⟨⟨r, hrtab, hrty, hrx⟩, hxhc, hxtoday⟩ :=
            (mem_pastList table tc hc today x).mp hx
          exact hno ⟨r, hrtab, hrty, hrx ▸ hxhc, hrx ▸ hxtoday⟩
      · intro m hm
        have hm2 : ((((List.insertionSort leHorizon (dropDuplicates
            ((table.filter (fun r => r.type = tc)).map
              (fun r => (r.contract_preamble, r.horizon_date))))).filter
                (fun p => p.2 < hc)).filter
                  (fun p => p.2 < today)).map (fun p => p.2)).max? = some m := hm
        obtain ⟨hmem, hdom⟩ := (max?_mem_le _).2 m hm2
        obtain ⟨⟨r, hrtab, hrty, hrm⟩, hmhc, hmtoday⟩ :=
          (mem_pastList table tc hc today m).mp hmem
        refine ⟨⟨r, hrtab, hrty, hrm⟩, hmhc, hmtoday, ?_⟩
        intro q hqtab hqty hqhc hqtoday
        exact hdom q.horizon_date ((mem_pastList table tc hc today
          q.horizon_date).mpr ⟨⟨q, hqtab, hqty, rfl⟩, hqhc, hqtoday⟩)
  · rfl

/-- Witness for C3: applying the resolver characterization to the concrete
three-horizon table shows the selected previous horizon 2025-06-18 is carried
by a same-category row and dominates every already-resolved earlier horizon. -/
theorem contract_info_previous_horizon_witness :
    (∃ r ∈ exT3, r.type = "fed" ∧ r.horizon_date = 20250618) ∧
    (20250618 : Int) < 20250730 ∧ (20250618 : Int) < 20250701 := by
  have h := contract_info_previous_horizon.1 exT3 20250701 "A" "fed" 20250730
    ⟨20250730, some 20250618, 20250601⟩
    (by
      intro r hr hpre
      rcases List.mem_cons.mp hr with he | hr2
      · rw [he]
        exact ⟨rfl, rfl⟩
      rcases List.mem_cons.mp hr2 with he | hr3
      · rw [he] at hpre
        simp [exT3] at hpre
      rcases List.mem_cons.mp hr3 with he | hr4
      · rw [he] at hpre
        simp [exT3] at hpre
      · simp [exT3] at hr4)
    (by rfl)
  obtain ⟨hex, hlt1, hlt2, _⟩ := h.2.2 20250618 rfl
  exact ⟨hex, hlt1, hlt2⟩

/-! ### Totality and determinism of the query surface -/

/-- C6.  Totality over the input domain: an unrecognized contract yields
empty results from the metadata, distribution and prediction-date queries
(never an error value — the operations are total functions); and a requested
prediction date with no rows for the contract yields an empty series for
that date. -/
theorem query_surface_total :
    (∀ (table : List DRow) (today : Int) (c : String),
      (∀ r ∈ table, r.contract_preamble ≠ c) →
      get_contract_info table today c = none ∧
      (∀ (dates : List Int) (lb ub : Option ℚ),
        get_distribution table today c dates lb ub =
          ⟨[], dates.map (fun d => (d, []))⟩) ∧
      (∀ ty : String, get_prediction_dates table today c ty = [])) ∧
    (∀ (table : List DRow) (today : Int) (c : String) (d : Int)
        (dates : List Int) (lb ub : Option ℚ),
      d ∈ dates →
      (∀ r ∈ table, ¬ (r.contract_preamble = c ∧ r.prediction_date = d)) →
      (d, ([] : List Row)) ∈ (get_distribution table today c dates lb ub).data) := by
  constructor
  · intro table today c h
    have hfe : table.filter (fun r => r.contract_preamble = c) = [] :=
      List.filter_eq_nil_iff.mpr (fun r hr => by simpa using h r hr)
    refine ⟨?_, ?_, ?_⟩
    · unfold get_contract_info
      rw [hfe]
    · intro dates lb ub
      unfold get_distribution
      rw [hfe]
      rfl
    · intro ty
      have hfe2 : table.filter
          (fun r => r.contract_preamble = c ∧ r.type = ty) = [] :=
        List.filter_eq_nil_iff.mpr
          (fun r hr => by simpa using fun hpre _ => h r hr hpre)
      unfold get_prediction_dates
      rw [hfe2]
  · intro table today c d dates lb ub hd hnone
    unfold get_distribution
    simp only
    refine List.mem_map.mpr ⟨d, hd, ?_⟩
    have hsub : (table.filter
        (fun r => r.contract_preamble = c)).filter
          (fun r => r.prediction_date = d) = [] := by
      refine List.filter_eq_nil_iff.mpr ?_
      intro r hr
      obtain ⟨hrtab, hrpre⟩ := List.mem_filter.mp hr
      have := hnone r hrtab
      simp only [decide_eq_true_eq] at hrpre ⊢
      intro hpd
      exact this ⟨hrpre, hpd⟩
    rw [hsub]
    rfl

/-- Witness for C6: the unknown contract `"Z"` against the concrete table,
and a date with no rows for the known contract `"A"`. -/
theorem query_surface_total_witness :
    get_contract_info exT3 20250701 "Z" = none ∧
    get_prediction_dates exT3 20250701 "Z" "fed" = [] ∧
    (20250101, ([] : List Row)) ∈
      (get_distribution exT3 20250701 "A" [20250101] none none).data := by
  have hz : ∀ r ∈ exT3, r.contract_preamble ≠ "Z" := by
    intro r hr
    rcases List.mem_cons.mp hr with he | hr2
    · rw [he]; simp [exT3]
    rcases List.mem_cons.mp hr2 with he | hr3
    · rw [he]; simp [exT3]
    rcases List.mem_cons.mp hr3 with he | hr4
    · rw [he]; simp [exT3]
    · simp at hr4
  have h1 := (query_surface_total.1 exT3 20250701 "Z" hz).1
  have h3 := (query_surface_total.1 exT3 20250701 "Z" hz).2.2 "fed"
  have h2 := query_surface_total.2 exT3 20250701 "A" 20250101 [20250101]
    none none (List.mem_cons_self _ _)
    (by
      intro r hr
      rcases List.mem_cons.mp hr with he | hr2
      · rw [he]; simp [exT3]
      rcases List.mem_cons.mp hr2 with he | hr3
      · rw [he]; simp [exT3]
      rcases List.mem_cons.mp hr3 with he | hr4
      · rw [he]; simp [exT3]
      · simp at hr4)
  exact ⟨h1, h3, h2⟩

/-- Counterexample to C8 as stated: `get_contract_info` is *not* a pure
function of the table and its arguments alone — evaluated over the same
table with the same contract on two consecutive days (the ambient wall clock
being the only difference), it returns two different results, because
`previous_horizon_date` compares horizons against `pd.to_datetime("today")`. -/
theorem get_contract_info_clock_dependent :
    get_contract_info exT3 20250618 "A" ≠ get_contract_info exT3 20250619 "A" := by
  decide

/-- C8 as amended: the list-contracts, list-categories, list-prediction-dates
and fetch-distribution operations never read the ambient clock, so two
evaluations with the same table and arguments agree even across different
wall-clock dates; fetch-contract-metadata is deterministic once the current
date is also fixed. -/
theorem query_clock_independent :
    (∀ (table : List DRow) (t1 t2 : Int) (ty : Option String),
      get_contracts table t1 ty = get_contracts table t2 ty) ∧
    (∀ (table : List DRow) (t1 t2 : Int),
      get_types table t1 = get_types table t2) ∧
    (∀ (table : List DRow) (t1 t2 : Int) (c ty : String),
      get_prediction_dates table t1 c ty = get_prediction_dates table t2 c ty) ∧
    (∀ (table : List DRow) (t1 t2 : Int) (c : String) (ds : List Int)
        (lb ub : Option ℚ),
      get_distribution table t1 c ds lb ub = get_distribution table t2 c ds lb ub) ∧
    (∀ (table : List DRow) (t1 t2 : Int) (c : String),
      t1 = t2 → get_contract_info table t1 c = get_contract_info table t2 c) :=
  ⟨fun _ _ _ _ => rfl, fun _ _ _ => rfl, fun _ _ _ _ _ => rfl,
   fun _ _ _ _ _ _ _ => rfl, fun _ _ _ _ h => by rw [h]⟩

/-- Witness for the amended C8 at concrete inputs. -/
theorem query_clock_independent_witness :
    get_contracts exT3 20250618 (some "fed") =
      get_contracts exT3 20250619 (some "fed") ∧
    get_contract_info exT3 20250618 "A" = get_contract_info exT3 20250618 "A" :=
  ⟨query_clock_independent.1 exT3 20250618 20250619 (some "fed"),
   query_clock_independent.2.2.2.2 exT3 20250618 20250618 "A" rfl⟩
